import Mathlib

/-!
Verification of the chronlang-engine semantic compiler and diachronic rewrite
engine.

Shallow embedding of the core of the `chronlang-engine` repository:

* `diachronics.ts` — languages, milestones, tags, `isChildLanguage`,
  `filterByTag`, `sortByTag`;
* `phonemics.ts` — traits, features, phonemes, categories, modifiers,
  `matchPhonemes`;
* `sound-change.ts` — `SoundChange` with `findSourceIn`, `testEnvironment`,
  `findMatchesIn`, `appliesTo`, `resolveTarget`, `applyTo`;
* `word.ts` — `Word` with `render` and `apply`;
* `module.ts` — `Module.snapshot`, `Module.hasMilestone`, `Module.listPhonemes`;
* `lib/compiler.ts` — the driver `Context` (`hasTag`/`getTag`) and `compileWord`.

Modelling conventions, used consistently below:

* JavaScript reference identity of interned entities is flattened to ids:
  traits carry a `tid`, features are referred to by a numeric feature id,
  phonemes carry their module-wide `index`, classes are referred to by a
  `classId` resolved through an explicit class table.  Within one compiled
  module each of these is unique, so reference equality coincides with
  equality of the flattened value.
* JavaScript numbers used as times are modelled as `Int`; the value
  `Infinity` (used for open-ended milestones and tags) is modelled by the
  two-point type `Time` below.
* A JavaScript `Map` is modelled as an association list in insertion order;
  `Map.set` on an existing key updates in place, otherwise appends.
* `Array.prototype.toSorted(cmp)` is modelled as a stable comparator sort:
  scanning the output built so far from the left, a new element is placed
  immediately before the first element it compares strictly less than
  (`cmp x y < 0`), hence after every element it ties with.  This is the
  insertion step performed by the stable sorts of JavaScript engines.
* Code that throws (the `assert` calls in `Context.getTag`) is modelled with
  `Except String`; the thrown assertion message is the `Except.error` payload.
* Source spans are inert location payloads; line/column bookkeeping is
  elided since the engine only stores them and never computes with them.
-/

namespace Chronlang

/-- A source span (`ast.Span`).  Only the identity of the span matters to the
engine, so the line/column structure is collapsed to offsets. -/
structure Span where
  source : String
  startOff : Nat
  stopOff : Nat
  deriving DecidableEq, Repr, Inhabited

/-- A JavaScript number used as a point in time: either a finite value or
`Infinity` (used by instant milestones and the tags they produce for their
open end). -/
inductive Time where
  | fin (t : Int)
  | inf
  deriving DecidableEq, Repr, Inhabited

/-- `a < b` for a finite `a : Int` against a `b : Time` (JS `a < b` where `b`
may be `Infinity`). -/
def Int.ltT (a : Int) : Time → Bool
  | .fin v => a < v
  | .inf => true

/-- `a >= t` for `a : Time` against a finite `t : Int` (JS `a >= t` where `a`
may be `Infinity`). -/
def Time.geI : Time → Int → Bool
  | .fin v, t => t ≤ v
  | .inf, _ => true

/-- A member of a language family (`diachronics.ts`).  `root` is a language
with `parent: null`, `child` one with a parent; `name`, `milestones` and
`definitionSite` are not consulted by the functions verified here and are
elided.  Languages are interned per module, so JS reference equality is
structural equality of this type. -/
inductive Language where
  | root (id : String)
  | child (id : String) (parent : Language)
  deriving DecidableEq, Repr

/-- The `parent` field: `none` models `null`. -/
def Language.parent : Language → Option Language
  | .root _ => none
  | .child _ p => some p

/-- `isChildLanguage(child, maybeParent)` from `diachronics.ts`: walks the
parent chain of `child` looking for `maybeParent`. -/
def isChildLanguage (child maybeParent : Language) : Bool :=
  if child = maybeParent then true
  else
    match child with
    | .root _ => false
    | .child _ p => if p = maybeParent then true else isChildLanguage p maybeParent

/-- A `Tag` (`diachronics.ts`): time window, language and module-wide
materialization index.  `stop` models the field `end` (a Lean keyword); it may
be `Infinity`. -/
structure Tag where
  start : Int
  stop : Time
  language : Language
  index : Nat
  deriving Repr

/-- `sortByTag` from `diachronics.ts`, as the JS comparator it is: `-1` when
`a.tag.start < b.tag.start`, `1` when `b.tag.start < a.tag.start`, `-1` when
the starts tie and `a.tag.index < b.tag.index`, `0` otherwise.  `tag`
abstracts the `{ tag: Tag }` structural bound of the TS generic. -/
def sortByTag (tag : α → Tag) (a b : α) : Int :=
  if (tag a).start < (tag b).start then -1
  else if (tag b).start < (tag a).start then 1
  else if (tag a).index < (tag b).index then -1
  else 0

/-- One insertion step of a JS stable comparator sort: the new element `x` is
placed immediately before the first already-placed element it compares
strictly less than, hence after everything it ties with (stability). -/
def insertJs (cmp : α → α → Int) (x : α) : List α → List α
  | [] => [x]
  | y :: ys => if cmp x y < 0 then x :: y :: ys else y :: insertJs cmp x ys

/-- `Array.prototype.toSorted(cmp)`: stable comparator sort, modelled by
inserting the elements left to right with `insertJs`. -/
def jsToSorted (cmp : α → α → Int) (l : List α) : List α :=
  l.foldl (fun acc x => insertJs cmp x acc) []

/-- `filterByTag(items, language, time)` from `diachronics.ts`: keep the items
whose tag language is an ancestor of (or equal to) `language` and whose time
window contains `time` (both endpoints included). -/
def filterByTag (tag : α → Tag) (items : List α) (language : Language) (time : Int) : List α :=
  (items.filter fun w => isChildLanguage language (tag w).language).filter
    fun w => decide ((tag w).start ≤ time) && (tag w).stop.geI time

/-- The sign of a feature modifier. -/
inductive Sign where
  | positive
  | negative
  deriving DecidableEq, Repr

/-- A `Trait` (`phonemics.ts`): its interning id, its features in declaration
order, and the designated default feature.  Features are flattened to their
interning ids (`fid`s); the feature's `labels` and back-pointer are realized
by carrying the owning `Trait` wherever the code dereferences
`feature.trait`. -/
structure Trait where
  tid : Nat
  features : List Nat
  default : Nat
  deriving DecidableEq, Repr

/-- A `Modifier` (`phonemics.ts`): `feature` is the feature's id and `trait`
the trait the code reaches through `mod.feature.trait`. -/
structure Modifier where
  feature : Nat
  name : String
  trait : Trait
  sign : Sign
  deriving DecidableEq, Repr

/-- A `Phoneme` (`phonemics.ts`): glyph, feature map (trait id → feature id,
in insertion order), owning class flattened to its `classId`, and the
module-wide declaration `index`.  `index` is unique per module, so structural
equality of this type models JS reference equality of phonemes. -/
structure Phoneme where
  glyph : List Char
  features : List (Nat × Nat)
  classId : Nat
  index : Nat
  deriving DecidableEq, Repr

/-- The `class.phonemes` back-pointer, flattened: a table from `classId` to
the class's phonemes in declaration order. -/
def ClassTable := List (Nat × List Phoneme)

/-- Look up a class's phoneme list (`ph.class.phonemes`). -/
def classPhonemes (ct : ClassTable) (cid : Nat) : List Phoneme :=
  (List.lookup cid ct).getD []

/-- The base of a `Category` (`phonemics.ts`): a class, a list series, or a
category series.  A category series is itself a category, so its base and
modifiers are inlined here. -/
inductive CatBase where
  | cls (phonemes : List Phoneme)
  | listSeries (phonemes : List Phoneme)
  | catSeries (base : Option CatBase) (modifiers : List Modifier)

/-- A `Category` (`phonemics.ts`): an optional base class/series and a list of
signed feature modifiers. -/
structure Category where
  baseClass : Option CatBase
  modifiers : List Modifier

/-- The modifier part of `categoryIncludes` (`sound-change.ts`): every
modifier must be satisfied (`positive`) resp. violated (`negative`) by the
phoneme's feature map. -/
def modifiersInclude (mods : List Modifier) (ph : Phoneme) : Bool :=
  mods.all fun m =>
    let featMatches := List.lookup m.trait.tid ph.features == some m.feature
    match m.sign with
    | .positive => featMatches
    | .negative => !featMatches

/-- The base part of `categoryIncludes`: membership in the base class / list
series, or recursively satisfying a category series. -/
def catBaseIncludes : CatBase → Phoneme → Bool
  | .cls phonemes, ph => phonemes.contains ph
  | .listSeries phonemes, ph => phonemes.contains ph
  | .catSeries base mods, ph =>
    (match base with
     | none => true
     | some b => catBaseIncludes b ph) && modifiersInclude mods ph

/-- `categoryIncludes(cat, ph)` from `sound-change.ts`. -/
def categoryIncludes (cat : Category) (ph : Phoneme) : Bool :=
  (match cat.baseClass with
   | none => true
   | some b => catBaseIncludes b ph) && modifiersInclude cat.modifiers ph

/-- One phoneme match produced by `matchPhonemes` (`phonemics.ts`). -/
structure PhonemeMatch where
  offset : Nat
  length : Nat
  phoneme : Phoneme
  deriving DecidableEq, Repr

/-- The result of `matchPhonemes`: either all input consumed, or the offset,
remaining text and message of the first failure. -/
inductive MatchResult where
  | ok (found : List PhonemeMatch)
  | failure (found : List PhonemeMatch) (offset : Nat) (rest : List Char) (message : String)
  deriving DecidableEq, Repr

/-- The matches of a successful `matchPhonemes` result, mapped to their
phonemes (the `res.matches.map(m => m.phoneme)` idiom of the callers). -/
def MatchResult.phonemesOf : MatchResult → Option (List Phoneme)
  | .ok ms => some (ms.map PhonemeMatch.phoneme)
  | .failure _ _ _ _ => none

/-- The loop of `matchPhonemes`: at each offset take the first phoneme of the
inventory whose glyph is a prefix of the rest of the input.  The JS loop runs
until the offset reaches the end of the input; since a phoneme with an empty
glyph would make it loop forever, the recursion is bounded by `fuel`, which
the wrapper sets large enough that it is never exhausted when every glyph is
non-empty. -/
def matchPhonemesGo (phonemes : List Phoneme) :
    Nat → List Char → Nat → List PhonemeMatch → MatchResult
  | _, [], _, ms => .ok ms
  | 0, rest, offset, ms =>
    .failure ms offset rest "fuel exhausted (unreachable for non-empty glyphs)"
  | fuel + 1, rest, offset, ms =>
    match phonemes.find? fun ph => ph.glyph.isPrefixOf rest with
    | some ph =>
      matchPhonemesGo phonemes fuel (rest.drop ph.glyph.length) (offset + ph.glyph.length)
        (ms ++ [⟨offset, ph.glyph.length, ph⟩])
    | none =>
      .failure ms offset rest "Failed to match phoneme"

/-- `matchPhonemes(transcription, phonemes)` from `phonemics.ts`: greedy
longest-match segmentation (the inventory is passed already sorted by glyph
length descending). -/
def matchPhonemes (transcription : List Char) (phonemes : List Phoneme) : MatchResult :=
  matchPhonemesGo phonemes (transcription.length + 1) transcription 0 []

/-- An error or warning record `{ message, span }` (`module.ts`). -/
structure Issue where
  message : String
  span : Span
  deriving DecidableEq, Repr

/-- A segment of a source pattern, and likewise an element of an environment
pattern (`sound-change.ts`): a concrete phoneme or a category predicate. -/
inductive Segment where
  | ph (p : Phoneme)
  | cat (c : Category)

/-- A sound change `Source` (`sound-change.ts`). -/
inductive Source where
  | empty
  | pattern (segments : List Segment)

/-- A sound change `Target` (`sound-change.ts`). -/
inductive Target where
  | empty
  | phonemes (phonemes : List Phoneme)
  | modification (mods : List Modifier)

/-- A sound change `Environment` (`sound-change.ts`). -/
structure Environment where
  before : List Segment
  after : List Segment
  anchorStart : Bool
  anchorEnd : Bool

/-- A matched `Range` (`sound-change.ts`): half-open phoneme index range plus
the matched slice.  `stop` models the field `end`. -/
structure Range where
  start : Nat
  stop : Nat
  phonemes : List Phoneme
  deriving DecidableEq, Repr

/-- A `SoundChange` (`sound-change.ts`). -/
structure SoundChange where
  source : Source
  target : Target
  environment : Option Environment
  description : Option String
  tag : Tag
  definitionSite : Span

/-- A lexicon entry (`word.ts`): part of speech and text. -/
structure Definition where
  partOfSpeech : Option String
  text : String
  deriving DecidableEq, Repr

/-- A `Word` (`word.ts`).  The etymology entries reference predecessor words,
so `Word` is a nested inductive. -/
inductive Word where
  | mk (gloss : String) (phonemes : List Phoneme) (definitions : List Definition)
      (tag : Tag) (definitionSite : Span) (etymology : List (Word × SoundChange))

/-- The word's gloss. -/
def Word.gloss : Word → String
  | .mk g _ _ _ _ _ => g

/-- The word's phoneme sequence. -/
def Word.phonemes : Word → List Phoneme
  | .mk _ p _ _ _ _ => p

/-- The word's definitions. -/
def Word.definitions : Word → List Definition
  | .mk _ _ d _ _ _ => d

/-- The word's tag. -/
def Word.tag : Word → Tag
  | .mk _ _ _ t _ _ => t

/-- The word's definition site. -/
def Word.definitionSite : Word → Span
  | .mk _ _ _ _ s _ => s

/-- The word's etymology chain. -/
def Word.etymology : Word → List (Word × SoundChange)
  | .mk _ _ _ _ _ e => e

/-- `Word.render()`: concatenation of the glyphs of the word's phonemes. -/
def Word.render (w : Word) : List Char :=
  (w.phonemes.map Phoneme.glyph).flatten

/-- The snapshot context (`module.ts`): the error and warning sinks shared by
one `Module.snapshot` run.  The `language`/`time` fields are carried along
unchanged. -/
structure SnapshotContext where
  language : Language
  time : Int
  errors : List Issue
  warnings : List Issue
  deriving Repr

/-- Does a pattern segment accept a phoneme?  (The two `continue` conditions
of the inner loops in `sound-change.ts`: phoneme reference equality or
category membership.) -/
def segMatches (s : Segment) (ph : Phoneme) : Bool :=
  match s with
  | .ph q => q == ph
  | .cat c => categoryIncludes c ph

/-- `arr.slice(s, e)` on lists. -/
def jsSlice (l : List α) (s e : Nat) : List α :=
  (l.drop s).take (e - s)

/-- `arr.splice(start, deleteCount, ...items)` on lists: a negative `start`
counts from the end (clamped at 0), a too-large one is clamped to the length;
`deleteCount` is clamped to the available suffix. -/
def jsSplice (arr : List α) (start : Int) (deleteCount : Nat) (items : List α) : List α :=
  let s : Nat :=
    if start < 0 then ((arr.length : Int) + start).toNat
    else min start.toNat arr.length
  arr.take s ++ items ++ arr.drop (s + deleteCount)

/-- The inner loop of `findSourceIn`: do the segments match the phonemes
starting at index `i` (failing when the pattern runs past the end)? -/
def segsMatchFrom : List Segment → List Phoneme → Nat → Bool
  | [], _, _ => true
  | s :: rest, phonemes, i =>
    match phonemes.get? i with
    | none => false
    | some ph => segMatches s ph && segsMatchFrom rest phonemes (i + 1)

/-- `SoundChange.findSourceIn(phonemes)`: every gap for an empty source;
otherwise every position where the segments match, with the matched slice. -/
def findSourceIn (sc : SoundChange) (phonemes : List Phoneme) : List Range :=
  match sc.source with
  | .empty => (List.range (phonemes.length + 1)).map fun i => ⟨i, i, []⟩
  | .pattern segs =>
    (List.range (phonemes.length + 1 - segs.length)).filterMap fun i =>
      if segsMatchFrom segs phonemes i then
        some ⟨i, i + segs.length, jsSlice phonemes i (i + segs.length)⟩
      else none

/-- The backwards scan over `environment.before` (right-justified against the
match): element `i` (from the right) must match the phoneme at
`start - i - 1`, and running off the left edge fails. -/
def beforeOk (before : List Segment) (phonemes : List Phoneme) (s : Nat) : Bool :=
  (List.range before.length).all fun i =>
    if i + 1 ≤ s then
      match before.get? (before.length - i - 1), phonemes.get? (s - i - 1) with
      | some seg, some ph => segMatches seg ph
      | _, _ => false
    else false

/-- The forwards scan over `environment.after`: element `i` must match the
phoneme at `stop + i`, and running off the right edge fails. -/
def afterOk (after : List Segment) (phonemes : List Phoneme) (e : Nat) : Bool :=
  (List.range after.length).all fun i =>
    match after.get? i, phonemes.get? (e + i) with
    | some seg, some ph => segMatches seg ph
    | _, _ => false

/-- `SoundChange.testEnvironment(phonemes, range)`: anchor checks, then the
`before` and `after` scans; a null environment matches unconditionally. -/
def testEnvironment (sc : SoundChange) (phonemes : List Phoneme) (r : Range) : Bool :=
  match sc.environment with
  | none => true
  | some env =>
    if env.anchorStart && !((r.start : Int) - env.before.length == 0) then false
    else if env.anchorEnd && !(r.stop + env.after.length == phonemes.length) then false
    else beforeOk env.before phonemes r.start && afterOk env.after phonemes r.stop

/-- `SoundChange.findMatchesIn(phonemes)`: the source matches that pass the
environment test. -/
def findMatchesIn (sc : SoundChange) (phonemes : List Phoneme) : List Range :=
  (findSourceIn sc phonemes).filter (testEnvironment sc phonemes)

/-- `SoundChange.tagsOverlap(a, b)`: `a.start < b.end && b.start < a.end`,
exclusive at both ends. -/
def tagsOverlap (a b : Tag) : Bool :=
  Int.ltT a.start b.stop && Int.ltT b.start a.stop

/-- `SoundChange.appliesTo(word)`: the tags overlap and at least one match
exists in the word's phonemes. -/
def appliesTo (sc : SoundChange) (w : Word) : Bool :=
  tagsOverlap sc.tag w.tag && decide (0 < (findMatchesIn sc w.phonemes).length)

/-- The new feature id computed for one modifier in
`SoundChange.resolveTarget`: on a positive sign the modifier's feature; on a
negative sign, if the modifier's feature is the trait's default, the first
feature of the trait different from it (`undefined`, i.e. `none`, when there
is none — the `.at(0)!` of the source), otherwise the trait's default. -/
def newFeatureFor (m : Modifier) : Option Nat :=
  match m.sign with
  | .positive => some m.feature
  | .negative =>
    if m.trait.default = m.feature then (m.trait.features.filter fun f => f ≠ m.feature).head?
    else some m.trait.default

/-- `Map.set` on an association list with `Option`-valued entries (a JS `Map`
can store `undefined`): update in place, append when the key is new. -/
def setFeat : List (Nat × Option Nat) → Nat → Option Nat → List (Nat × Option Nat)
  | [], t, v => [(t, v)]
  | (k, w) :: rest, t, v =>
    if k = t then (k, v) :: rest else (k, w) :: setFeat rest t v

/-- The `newFeats` map built by `resolveTarget` for one source phoneme: a copy
of `ph.features` updated by each modifier whose trait occurs in
`ph.features`. -/
def editFeatures (ph : Phoneme) (mods : List Modifier) : List (Nat × Option Nat) :=
  mods.foldl
    (fun nf m =>
      if (List.lookup m.trait.tid ph.features).isSome then
        setFeat nf m.trait.tid (newFeatureFor m)
      else nf)
    (ph.features.map fun tf => (tf.1, some tf.2))

/-- The `candidates` filter of `resolveTarget`: the phonemes of `ph`'s class
whose feature map agrees with every entry of the edited map. -/
def candidatesFor (ct : ClassTable) (ph : Phoneme) (mods : List Modifier) : List Phoneme :=
  (classPhonemes ct ph.classId).filter fun p =>
    (editFeatures ph mods).all fun tf => List.lookup tf.1 p.features == tf.2

/-- The warning message pushed when a feature modification resolves to no
phoneme of the class. -/
def unresolvableMsg : String :=
  "This rule generates phonemes that cannot be described by classes in this project"

/-- One step of the `source.map` inside `resolveTarget` for a modification
target: replace the phoneme by the first candidate, keeping it (and pushing a
warning tagged with the change's `definitionSite`) when there is none. -/
def rtStep (sc : SoundChange) (ct : ClassTable) (mods : List Modifier)
    (acc : List Phoneme × SnapshotContext) (ph : Phoneme) : List Phoneme × SnapshotContext :=
  match candidatesFor ct ph mods with
  | [] =>
    (acc.1 ++ [ph],
     { acc.2 with warnings := acc.2.warnings ++ [⟨unresolvableMsg, sc.definitionSite⟩] })
  | c :: _ => (acc.1 ++ [c], acc.2)

/-- `SoundChange.resolveTarget(source, ctx)`: empty target → empty sequence;
literal phonemes → the literal list; modification → per source phoneme the
first class member matching the edited feature map, keeping the original
phoneme and pushing a warning (tagged with the change's `definitionSite`)
when there is none. -/
def resolveTarget (sc : SoundChange) (ct : ClassTable) (source : List Phoneme)
    (ctx : SnapshotContext) : List Phoneme × SnapshotContext :=
  match sc.target with
  | .empty => ([], ctx)
  | .phonemes ps => (ps, ctx)
  | .modification mods => source.foldl (rtStep sc ct mods) ([], ctx)

/-- One splice step of `SoundChange.applyTo`: state is the phoneme array
being edited, the running length offset, and the snapshot context. -/
def applyStep (sc : SoundChange) (ct : ClassTable)
    (st : List Phoneme × Int × SnapshotContext) (r : Range) :
    List Phoneme × Int × SnapshotContext :=
  let len := r.stop - r.start
  let src := jsSlice st.1 r.start r.stop
  let tgt := (resolveTarget sc ct src st.2.2).1
  (jsSplice st.1 ((r.start : Int) + st.2.1) len tgt,
   st.2.1 + (tgt.length : Int) - (src.length : Int),
   (resolveTarget sc ct src st.2.2).2)

/-- `SoundChange.applyTo(word, ctx)`: splice each resolved target over its
match, left to right, tracking the length offset of prior replacements. -/
def applyTo (sc : SoundChange) (ct : ClassTable) (w : Word) (ctx : SnapshotContext) :
    List Phoneme × SnapshotContext :=
  let res := (findMatchesIn sc w.phonemes).foldl (applyStep sc ct) (w.phonemes, (0 : Int), ctx)
  (res.1, res.2.2)

/-- `Word.apply(sc, ctx)`: the word itself when the change does not apply,
otherwise a new `Word` with the rewritten phonemes and the pair
`[this, sc]` appended to the etymology. -/
def Word.apply (w : Word) (ct : ClassTable) (sc : SoundChange) (ctx : SnapshotContext) :
    Word × SnapshotContext :=
  if appliesTo sc w then
    (Word.mk w.gloss (applyTo sc ct w ctx).1 w.definitions w.tag w.definitionSite
      (w.etymology ++ [(w, sc)]),
     (applyTo sc ct w ctx).2)
  else (w, ctx)

/-- A `Milestone` (`diachronics.ts`): `(starts, ends, language)`, the language
flattened to its interning id. -/
structure Milestone where
  starts : Int
  ends : Time
  language : String
  deriving DecidableEq, Repr

/-- `Module.hasMilestone(m)`: is a milestone with the same `(starts, ends,
language)` already recorded? -/
def hasMilestone (milestones : List Milestone) (m : Milestone) : Bool :=
  (milestones.find? fun x =>
    x.starts == m.starts && x.ends == m.ends && x.language == m.language).isSome

/-- The compiled `Module` (`module.ts`), restricted to the members the
verified functions consult: the class table (for `listPhonemes` and the
class back-pointers), the words and sound changes in insertion order, and the
milestone list. -/
structure Module where
  classes : ClassTable
  words : List Word
  soundChanges : List SoundChange
  milestones : List Milestone
  errors : List Issue
  warnings : List Issue

/-- The comparator of `Module.listPhonemes`: glyph length descending, then
declaration index ascending. -/
def phonemeCmp (a b : Phoneme) : Int :=
  if a.glyph.length < b.glyph.length then 1
  else if b.glyph.length < a.glyph.length then -1
  else if a.index < b.index then -1
  else if b.index < a.index then 1
  else 0

/-- `Module.listPhonemes()`: all class phonemes, sorted by the comparator
above. -/
def Module.listPhonemes (m : Module) : List Phoneme :=
  jsToSorted phonemeCmp ((m.classes.map Prod.snd).flatten)

/-- A `Snapshot` (`module.ts`). -/
structure Snapshot where
  language : Language
  time : Int
  errors : List Issue
  warnings : List Issue
  ok : Bool
  words : List Word
  soundChanges : List SoundChange

/-- The `soundChanges.reduce((w, sc) => w.apply(sc, ctx), word)` fold of
`Module.snapshot`, threading the shared context. -/
def applyFold (ct : ClassTable) (scs : List SoundChange) (w : Word) (ctx : SnapshotContext) :
    Word × SnapshotContext :=
  scs.foldl (fun (p : Word × SnapshotContext) sc => p.1.apply ct sc p.2) (w, ctx)

/-- One word of the `words.map(...)` of `Module.snapshot`: evolve the word
through every selected change, collecting it and the updated context. -/
def snapStep (ct : ClassTable) (scs : List SoundChange)
    (st : List Word × SnapshotContext) (w : Word) : List Word × SnapshotContext :=
  let wc := applyFold ct scs w st.2
  (st.1 ++ [wc.1], wc.2)

/-- `Module.snapshot(language, time)`: select and sort the sound changes with
`tag.start <= time`, select the words with `filterByTag`, and fold the sorted
changes over each word, threading one shared snapshot context. -/
def Module.snapshot (m : Module) (language : Language) (time : Int) : Snapshot :=
  let soundChanges :=
    jsToSorted (sortByTag SoundChange.tag)
      (m.soundChanges.filter fun sc => decide (sc.tag.start ≤ time))
  let ctx0 : SnapshotContext := ⟨language, time, [], []⟩
  let res := (filterByTag Word.tag m.words language time).foldl
    (snapStep m.classes soundChanges) ([], ctx0)
  ⟨language, time, res.2.errors, res.2.warnings, res.2.errors.length == 0, res.1, soundChanges⟩

/-! ## Pure companions of the snapshot fold

`resolveTarget`, `applyTo` and `Word.apply` thread the snapshot context only
to append warnings; the phonemes and words they produce do not depend on it.
The following definitions compute the same words purely; the lemmas below
prove the agreement and are the backbone of the snapshot theorems. -/

/-- The phoneme `resolveTarget` substitutes for one source phoneme of a
modification target: the first candidate, or the phoneme itself when there is
none. -/
def applyModPhoneme (ct : ClassTable) (mods : List Modifier) (ph : Phoneme) : Phoneme :=
  match candidatesFor ct ph mods with
  | [] => ph
  | c :: _ => c

/-- The phoneme list `resolveTarget` returns, without the context. -/
def rtPhonemes (sc : SoundChange) (ct : ClassTable) (source : List Phoneme) : List Phoneme :=
  match sc.target with
  | .empty => []
  | .phonemes ps => ps
  | .modification mods => source.map (applyModPhoneme ct mods)

/-- The `(phonemes, offset)` part of one `applyTo` splice step, without the
context. -/
def applyStepPure (sc : SoundChange) (ct : ClassTable)
    (st : List Phoneme × Int) (r : Range) : List Phoneme × Int :=
  let src := jsSlice st.1 r.start r.stop
  let tgt := rtPhonemes sc ct src
  (jsSplice st.1 ((r.start : Int) + st.2) (r.stop - r.start) tgt,
   st.2 + (tgt.length : Int) - (src.length : Int))

/-- The phoneme list `applyTo` returns, without the context. -/
def applyPhonemes (sc : SoundChange) (ct : ClassTable) (w : Word) : List Phoneme :=
  ((findMatchesIn sc w.phonemes).foldl (applyStepPure sc ct) (w.phonemes, (0 : Int))).1

/-- The word `Word.apply` returns, without the context. -/
def applyPure (w : Word) (ct : ClassTable) (sc : SoundChange) : Word :=
  if appliesTo sc w then
    Word.mk w.gloss (applyPhonemes sc ct w) w.definitions w.tag w.definitionSite
      (w.etymology ++ [(w, sc)])
  else w

/-- The evolved form of a word under a sorted list of sound changes: the fold
of step 3 of the snapshot builder, without the context. -/
def evolve (ct : ClassTable) (scs : List SoundChange) (w : Word) : Word :=
  scs.foldl (fun v sc => applyPure v ct sc) w

/-- The compiler driver context (`lib/compiler.ts`): current language, time
window, and the monotonic tag/phoneme counters. -/
structure Context where
  tagIndex : Nat
  tagLanguage : Option Language
  tagStart : Option Int
  tagEnd : Option Time
  phonemeIndex : Nat
  deriving Repr

/-- The initial driver context (all fields unset). -/
def Context.init : Context :=
  ⟨0, none, none, none, 0⟩

/-- `Context.hasTag()`: start, end and language are all set. -/
def Context.hasTag (c : Context) : Bool :=
  c.tagStart.isSome && c.tagEnd.isSome && c.tagLanguage.isSome

/-- The message of the first assertion in `Context.getTag()`. -/
def getTagAssertStartMsg : String :=
  "`getTag()` called before start time specified. Use `hasTag()` to validate first."

/-- The message of the second assertion in `Context.getTag()`. -/
def getTagAssertEndMsg : String :=
  "`getTag()` called before end time specified. Use `hasTag()` to validate first."

/-- The message of the third assertion in `Context.getTag()`. -/
def getTagAssertLanguageMsg : String :=
  "`getTag()` called before language specified. Use `hasTag()` to validate first."

/-- `Context.getTag()`: asserts that start, end and language are set (a
failing `assert` throws, modelled as `Except.error` with the assertion
message), then materializes a tag and increments `tagIndex`. -/
def Context.getTag (c : Context) : Except String (Tag × Context) :=
  match c.tagStart with
  | none => .error getTagAssertStartMsg
  | some s =>
    match c.tagEnd with
    | none => .error getTagAssertEndMsg
    | some e =>
      match c.tagLanguage with
      | none => .error getTagAssertLanguageMsg
      | some lang => .ok (⟨s, e, lang, c.tagIndex⟩, { c with tagIndex := c.tagIndex + 1 })

/-- A parsed word statement (`ast.Word`), restricted to the fields
`compileWord` reads. -/
structure WordStmt where
  gloss : String
  glossSpan : Span
  pronunciation : List Char
  prnSpan : Span
  definitions : List Definition

/-- The error message `compileWord` records when no milestone has set a tag
yet. -/
def wordBeforeMilestoneMsg : String :=
  "Words cannot be defined before a milestone."

/-- The error message for a duplicate gloss.  (The source interpolates the
conflicting definition site into the message; the location rendering is
elided here.) -/
def duplicateGlossMsg (gloss : String) : String :=
  "A word with the gloss " ++ gloss ++ " is already defined."

/-- `compileWord(module, ctx, stmt)` from `lib/compiler.ts`, translated
step by step:

1. if the context has no materialized tag, push the
   "cannot be defined before a milestone" error — and fall through;
2. on a gloss conflict, push an error and return;
3. segment the pronunciation against `module.listPhonemes()`; on failure
   push an error and return;
4. call `ctx.getTag()` — whose assertions throw when the tag is absent —
   and record the new word.

The JS function mutates `module` in place and lets exceptions propagate, so
the model returns the module as updated up to the point of the throw,
together with `Except.error` carrying the assertion message (the normal
result is the handler's `continue` boolean). -/
def compileWord (m : Module) (ctx : Context) (stmt : WordStmt) :
    Module × Context × Except String Bool :=
  let m :=
    if !ctx.hasTag then
      { m with errors := m.errors ++ [⟨wordBeforeMilestoneMsg, stmt.glossSpan⟩] }
    else m
  match m.words.find? fun w => w.gloss == stmt.gloss with
  | some _ =>
    ({ m with errors := m.errors ++ [⟨duplicateGlossMsg stmt.gloss, stmt.glossSpan⟩] },
     ctx, .ok true)
  | none =>
    match matchPhonemes stmt.pronunciation m.listPhonemes with
    | .failure _ _ _ msg =>
      ({ m with errors := m.errors ++ [⟨msg, stmt.prnSpan⟩] }, ctx, .ok true)
    | .ok found =>
      match ctx.getTag with
      | .error e => (m, ctx, .error e)
      | .ok (tag, ctx') =>
        ({ m with
            words := m.words ++
              [Word.mk stmt.gloss (found.map PhonemeMatch.phoneme) stmt.definitions tag
                stmt.glossSpan []] },
         ctx', .ok true)

/-- Modelled from the spec: `compileMilestone` of the current compiler.  The
compiler module itself (`src/compiler.ts`, the one imported by `src/mod.ts`
and exercised by `tests/language.test.ts`) is absent from the sources — only
its tests, callers and the `Module.hasMilestone` helper are present — so the
milestone-recording step is taken from §4.6 of the specification: "Milestones
are **also** appended to the module's milestone list and to that language's
own milestone list (deduplicated by `(starts, ends, language)`)."
`moduleMilestones` is the module's list, `langMilestones` the named
language's own list; deduplication uses `hasMilestone` from `module.ts`. -/
def compileMilestoneModelled (moduleMilestones langMilestones : List Milestone)
    (m : Milestone) : List Milestone × List Milestone :=
  (if hasMilestone moduleMilestones m then moduleMilestones else moduleMilestones ++ [m],
   if hasMilestone langMilestones m then langMilestones else langMilestones ++ [m])

/-! ## Specification-side definitions

Definitions transcribed from the wording of the specification claims (not
from the code); the theorems below compare them with the embedded code. -/

/-- Strict order between a finite instant and a `Time`, as the spec writes
`a.start < b.end`. -/
def beforeTime (a : Int) : Time → Prop
  | .fin v => a < v
  | .inf => True

instance (a : Int) (b : Time) : Decidable (beforeTime a b) := by
  cases b <;> simp [beforeTime] <;> infer_instance

/-- Non-strict order between a finite instant and a `Time`, as the spec
writes `t ≤ tag.end`. -/
def leTime (a : Int) : Time → Prop
  | .fin v => a ≤ v
  | .inf => True

instance (a : Int) (b : Time) : Decidable (leTime a b) := by
  cases b <;> simp [leTime] <;> infer_instance

/-- The spec's notion of descent in the language tree: `L' = L` or `L'` is a
descendant of `L` through the parent chain. -/
inductive IsDescendantOf : Language → Language → Prop
  | refl (l : Language) : IsDescendantOf l l
  | step (i : String) (p a : Language) :
      IsDescendantOf p a → IsDescendantOf (.child i p) a

/-- The per-modifier new-feature formula exactly as claim C2 states it: on a
positive sign the modifier's feature; on a negative sign, **if the phoneme's
current feature for the trait is the trait's default** then the first feature
of the trait different from the modifier's, otherwise the trait's default. -/
def claimNewFeatureFor (ph : Phoneme) (m : Modifier) : Option Nat :=
  match m.sign with
  | .positive => some m.feature
  | .negative =>
    if List.lookup m.trait.tid ph.features = some m.trait.default then
      (m.trait.features.filter fun f => f ≠ m.feature).head?
    else some m.trait.default

/-- The per-modifier new-feature formula of claim C2 as amended: on a
negative sign the case split is on **whether the modifier's feature is the
trait's default** (what the code's `trait.default === mod.feature` tests),
not on the phoneme's current feature. -/
def amendedNewFeatureFor (m : Modifier) : Option Nat :=
  match m.sign with
  | .positive => some m.feature
  | .negative =>
    if m.trait.default = m.feature then
      (m.trait.features.filter fun f => f ≠ m.feature).head?
    else some m.trait.default

/-- A phoneme inventory is prefix-free when no glyph of one entry is a prefix
of another entry's glyph (in particular there are no duplicate glyphs). -/
def prefixFree (inv : List Phoneme) : Prop :=
  inv.Pairwise fun p q => ¬ p.glyph <+: q.glyph ∧ ¬ q.glyph <+: p.glyph

instance (inv : List Phoneme) : Decidable (prefixFree inv) := by
  unfold prefixFree
  infer_instance

/-- The concatenated glyphs of a phoneme list (`Word.render` is this applied
to the word's phonemes). -/
def renderPhonemes (ps : List Phoneme) : List Char :=
  (ps.map Phoneme.glyph).flatten

/-- The match records `matchPhonemes` produces for an unambiguous
segmentation, consecutive from a starting offset. -/
def mkMatches : List Phoneme → Nat → List PhonemeMatch
  | [], _ => []
  | p :: ps, o => ⟨o, p.glyph.length, p⟩ :: mkMatches ps (o + p.glyph.length)

/-! ## Concrete instances used by counterexamples and witnesses -/

/-- A span used by the concrete instances. -/
def span0 : Span := ⟨"example", 0, 0⟩

/-- A root language used by the concrete instances. -/
def langX : Language := .root "X"

/-- An all-ages tag used by the concrete instances. -/
def tag0 : Tag := ⟨0, Time.inf, langX, 0⟩

/-- An empty snapshot context over `langX`. -/
def ctx0 : SnapshotContext := ⟨langX, 0, [], []⟩

/-- C2: a trait with two features, feature `0` being the default. -/
def exTrait2 : Trait := ⟨0, [0, 1], 0⟩

/-- C2: a negative modifier whose feature is the trait's default. -/
def exMod2 : Modifier := ⟨0, "m", exTrait2, .negative⟩

/-- C2: a phoneme whose current feature for the trait is `1`, not the
default. -/
def exPh2 : Phoneme := ⟨['b'], [(0, 1)], 0, 0⟩

/-- C7: phoneme with glyph `ab` (declaration index 0). -/
def exPhAB : Phoneme := ⟨['a', 'b'], [], 0, 0⟩

/-- C7: phoneme with glyph `a` (declaration index 1). -/
def exPhA : Phoneme := ⟨['a'], [], 0, 1⟩

/-- C7: phoneme with glyph `b` (declaration index 2). -/
def exPhB : Phoneme := ⟨['b'], [], 0, 2⟩

/-- C7: an inventory sorted by glyph length descending, index ascending. -/
def exInv7 : List Phoneme := [exPhAB, exPhA, exPhB]

/-- C7: the word /ab/ segmented as the two phonemes `a`, `b`. -/
def exWord7 : Word := .mk "w" [exPhA, exPhB] [] tag0 span0 []

/-- C7 (amended witness): a word over the prefix-free inventory
`[exPhA, exPhB]`. -/
def exWord7b : Word := .mk "v" [exPhA, exPhB, exPhA] [] tag0 span0 []

/-- C8: a positive modifier to feature `1` of `exTrait2`. -/
def exMod8 : Modifier := ⟨1, "m8", exTrait2, .positive⟩

/-- C8: a phoneme of class `5` carrying the trait's default feature. -/
def exPh8 : Phoneme := ⟨['k'], [(0, 0)], 5, 0⟩

/-- C8: a modification sound change built from `exMod8`. -/
def exSc8 : SoundChange := ⟨.empty, .modification [exMod8], none, none, tag0, span0⟩

/-- C9: a sound change with empty source and empty target that applies to any
word with an overlapping tag. -/
def exSc9 : SoundChange := ⟨.empty, .empty, none, none, tag0, span0⟩

/-- C9: a word with no phonemes tagged with `tag0`. -/
def exWord9 : Word := .mk "u" [] [] tag0 span0 []

/-- C3 witness: a root language. -/
def exLang3 : Language := .root "L"

/-- C3 witness: a word declared under `exLang3` on `[0, 10]`. -/
def exWord3 : Word := .mk "g3" [] [] ⟨0, .fin 10, exLang3, 0⟩ span0 []

/-- C3 witness: a module containing just `exWord3`. -/
def exMod3 : Module := ⟨[], [exWord3], [], [], [], []⟩

/-- C1: a freshly constructed, still-empty module. -/
def exModEmpty : Module := ⟨[], [], [], [], [], []⟩

/-- C1: a word statement with an empty pronunciation (so that transcription
matching succeeds trivially), compiled before any milestone. -/
def exStmt1 : WordStmt := ⟨"I", span0, [], span0, []⟩

/-! ## Helper lemmas -/

theorem ltT_iff_beforeTime (a : Int) (b : Time) : Int.ltT a b = true ↔ beforeTime a b := by
  cases b <;> simp [Int.ltT, beforeTime]

theorem geI_iff_leTime (b : Time) (a : Int) : b.geI a = true ↔ leTime a b := by
  cases b <;> simp [Time.geI, leTime]

theorem filter_length_pos_iff (p : α → Bool) (l : List α) :
    0 < (l.filter p).length ↔ ∃ x ∈ l, p x = true := by
  rw [List.length_pos]
  constructor
  · intro h
    rcases List.exists_mem_of_ne_nil _ h with ⟨x, hx⟩
    exact ⟨x, (List.mem_filter.mp hx).1, (List.mem_filter.mp hx).2⟩
  · rintro ⟨x, hx, hpx⟩ hnil
    have : x ∈ l.filter p := List.mem_filter.mpr ⟨hx, hpx⟩
    rw [hnil] at this
    exact absurd this (List.not_mem_nil x)

/-- C4: `appliesTo(change, word)` holds iff the change's tag overlaps the
word's tag — `a.start < b.end` and `b.start < a.end`, exclusive at both
ends — and at least one range of the word's phonemes matches the source
pattern and passes the environment test. -/
theorem c4_appliesTo_iff (sc : SoundChange) (w : Word) :
    appliesTo sc w = true ↔
      ((beforeTime sc.tag.start w.tag.stop ∧ beforeTime w.tag.start sc.tag.stop) ∧
        ∃ r ∈ findSourceIn sc w.phonemes, testEnvironment sc w.phonemes r = true) := by
  unfold appliesTo tagsOverlap findMatchesIn
  rw [Bool.and_eq_true, Bool.and_eq_true, decide_eq_true_eq,
    ltT_iff_beforeTime, ltT_iff_beforeTime, filter_length_pos_iff]

theorem mem_insertJs (cmp : α → α → Int) (x : α) (l : List α) (z : α) :
    z ∈ insertJs cmp x l ↔ z = x ∨ z ∈ l := by
  induction l with
  | nil => simp [insertJs]
  | cons y ys ih =>
    by_cases h : cmp x y < 0
    · simp only [insertJs, if_pos h, List.mem_cons]
    · simp only [insertJs, if_neg h, List.mem_cons, ih]
      tauto

theorem insertJs_pairwise {cmp : α → α → Int}
    (hasym : ∀ x y, cmp x y < 0 → ¬ cmp y x < 0)
    (htrans : ∀ x y z, cmp x y < 0 → cmp y z < 0 → cmp x z < 0)
    (x : α) (l : List α) (hl : l.Pairwise fun a b => ¬ cmp b a < 0) :
    (insertJs cmp x l).Pairwise fun a b => ¬ cmp b a < 0 := by
  induction l with
  | nil => simp [insertJs]
  | cons y ys ih =>
    rcases List.pairwise_cons.mp hl with ⟨hy, hys⟩
    by_cases h : cmp x y < 0
    · simp only [insertJs, if_pos h]
      refine List.pairwise_cons.mpr ⟨?_, hl⟩
      intro z hz
      rcases List.mem_cons.mp hz with rfl | hz'
      · exact hasym x z h
      · intro hzx
        exact hy z hz' (htrans z x y hzx h)
    · simp only [insertJs, if_neg h]
      refine List.pairwise_cons.mpr ⟨?_, ih hys⟩
      intro z hz
      rcases (mem_insertJs cmp x ys z).mp hz with rfl | hz'
      · exact h
      · exact hy z hz'

theorem jsToSorted_pairwise {cmp : α → α → Int}
    (hasym : ∀ x y, cmp x y < 0 → ¬ cmp y x < 0)
    (htrans : ∀ x y z, cmp x y < 0 → cmp y z < 0 → cmp x z < 0)
    (l : List α) :
    (jsToSorted cmp l).Pairwise fun a b => ¬ cmp b a < 0 := by
  suffices h : ∀ (l : List α) (acc : List α), (acc.Pairwise fun a b => ¬ cmp b a < 0) →
      ((l.foldl (fun acc x => insertJs cmp x acc) acc).Pairwise fun a b => ¬ cmp b a < 0) by
    exact h l [] (List.Pairwise.nil)
  intro l
  induction l with
  | nil => intro acc hacc; simpa using hacc
  | cons x xs ih =>
    intro acc hacc
    exact ih (insertJs cmp x acc) (insertJs_pairwise hasym htrans x acc hacc)

theorem sortByTag_neg_iff (tag : α → Tag) (a b : α) :
    sortByTag tag a b < 0 ↔
      ((tag a).start < (tag b).start ∨
       ((tag a).start = (tag b).start ∧ (tag a).index < (tag b).index)) := by
  unfold sortByTag
  split_ifs with h1 h2 h3 <;> norm_num <;> omega

/-- C6: sorting with `sortByTag` yields an order that is lexicographic on
`(tag.start, tag.index)`: starts are non-decreasing, and whenever two sorted
items tie on `start` their indices are in ascending order (so of two items
with equal starts and distinct indices, the one with the smaller index comes
strictly first). -/
theorem c6_sortByTag_lex (tag : α → Tag) (l : List α) :
    (jsToSorted (sortByTag tag) l).Pairwise fun a b =>
      (tag a).start ≤ (tag b).start ∧
        ((tag a).start = (tag b).start → (tag a).index ≤ (tag b).index) := by
  have hasym : ∀ x y, sortByTag tag x y < 0 → ¬ sortByTag tag y x < 0 := by
    intro x y hx hy
    rw [sortByTag_neg_iff] at hx hy
    omega
  have htrans : ∀ x y z,
      sortByTag tag x y < 0 → sortByTag tag y z < 0 → sortByTag tag x z < 0 := by
    intro x y z hxy hyz
    rw [sortByTag_neg_iff] at hxy hyz ⊢
    omega
  refine (jsToSorted_pairwise hasym htrans l).imp ?_
  intro a b h
  rw [sortByTag_neg_iff] at h
  omega

theorem lookup_setFeat_self (l : List (Nat × Option Nat)) (t : Nat) (v : Option Nat) :
    List.lookup t (setFeat l t v) = some v := by
  induction l with
  | nil => simp [setFeat, List.lookup]
  | cons kw rest ih =>
    rcases kw with ⟨k, w⟩
    by_cases h : k = t
    · subst h
      simp [setFeat, List.lookup]
    · have ht : (t == k) = false := beq_eq_false_iff_ne.mpr (Ne.symm h)
      simp only [setFeat, if_neg h, List.lookup, ht]
      exact ih

theorem lookup_setFeat_other (l : List (Nat × Option Nat)) (k t : Nat) (v : Option Nat)
    (h : k ≠ t) : List.lookup t (setFeat l k v) = List.lookup t l := by
  have ht : (t == k) = false := beq_eq_false_iff_ne.mpr (Ne.symm h)
  induction l with
  | nil => simp [setFeat, List.lookup, ht]
  | cons kw rest ih =>
    rcases kw with ⟨k', w⟩
    by_cases h' : k' = k
    · subst h'
      simp [setFeat, List.lookup, ht]
    · cases hk : (t == k') <;> simp [setFeat, if_neg h', List.lookup, hk, ih]

/-- The fold step of `editFeatures`, named for the lemmas below. -/
theorem editFeatures_eq_foldl (ph : Phoneme) (mods : List Modifier) :
    editFeatures ph mods =
      mods.foldl
        (fun nf m =>
          if (List.lookup m.trait.tid ph.features).isSome then
            setFeat nf m.trait.tid (newFeatureFor m)
          else nf)
        (ph.features.map fun tf => (tf.1, some tf.2)) := rfl

theorem editFeatures_fold_untouched (ph : Phoneme) (t : Nat) (mods : List Modifier)
    (hf : mods.filter (fun x => x.trait.tid == t) = []) :
    ∀ nf : List (Nat × Option Nat),
      List.lookup t
        (mods.foldl
          (fun nf m =>
            if (List.lookup m.trait.tid ph.features).isSome then
              setFeat nf m.trait.tid (newFeatureFor m)
            else nf)
          nf) = List.lookup t nf := by
  induction mods with
  | nil => intro nf; rfl
  | cons x rest ih =>
    intro nf
    rw [List.filter_cons] at hf
    by_cases hx : (x.trait.tid == t) = true
    · rw [if_pos hx] at hf
      exact absurd hf (List.cons_ne_nil _ _)
    · rw [if_neg hx] at hf
      have hne : x.trait.tid ≠ t := by simpa using hx
      simp only [List.foldl_cons]
      by_cases hmem : (List.lookup x.trait.tid ph.features).isSome = true
      · rw [if_pos hmem, ih hf, lookup_setFeat_other _ _ _ _ hne]
      · rw [if_neg hmem, ih hf]

theorem editFeatures_fold_lookup (ph : Phoneme) (m : Modifier) (mods : List Modifier)
    (hf : mods.filter (fun x => x.trait.tid == m.trait.tid) = [m])
    (hp : (List.lookup m.trait.tid ph.features).isSome = true) :
    ∀ nf : List (Nat × Option Nat),
      List.lookup m.trait.tid
        (mods.foldl
          (fun nf m =>
            if (List.lookup m.trait.tid ph.features).isSome then
              setFeat nf m.trait.tid (newFeatureFor m)
            else nf)
          nf) = some (newFeatureFor m) := by
  induction mods with
  | nil => intro nf; exact absurd hf (by simp)
  | cons x rest ih =>
    intro nf
    rw [List.filter_cons] at hf
    by_cases hx : (x.trait.tid == m.trait.tid) = true
    · rw [if_pos hx] at hf
      have hxm : x = m := by
        have := List.head_eq_of_cons_eq hf
        exact this
      have hrest : rest.filter (fun x => x.trait.tid == m.trait.tid) = [] :=
        List.tail_eq_of_cons_eq hf
      subst hxm
      simp only [List.foldl_cons, if_pos hp]
      rw [editFeatures_fold_untouched ph x.trait.tid rest hrest, lookup_setFeat_self]
    · rw [if_neg hx] at hf
      simp only [List.foldl_cons]
      by_cases hmem : (List.lookup x.trait.tid ph.features).isSome = true
      · rw [if_pos hmem]
        exact ih hf _
      · rw [if_neg hmem]
        exact ih hf _

theorem newFeatureFor_eq_amended (m : Modifier) :
    newFeatureFor m = amendedNewFeatureFor m := by
  cases h : m.sign <;> simp [newFeatureFor, amendedNewFeatureFor, h]

/-- C2 (counterexample): with `exTrait2 = {features [0, 1], default 0}`, the
negative modifier `exMod2` to feature `0` (the default), and the phoneme
`exPh2` whose current feature is `1` (not the default), the claim's formula
demands the trait's default `0`, but the code (whose test is
`trait.default === mod.feature`, not a test of the phoneme's current feature)
computes feature `1` — the edited feature map disagrees with the claim. -/
theorem c2_counterexample :
    List.lookup exMod2.trait.tid (editFeatures exPh2 [exMod2]) = some (some 1) ∧
    claimNewFeatureFor exPh2 exMod2 = some 0 ∧
    List.lookup exMod2.trait.tid (editFeatures exPh2 [exMod2]) ≠
      some (claimNewFeatureFor exPh2 exMod2) := by decide

/-- C2 (amended): for every phoneme and modifier list, if `m` is the unique
modifier of its trait in the list and the trait occurs in the phoneme's
feature map, the edited feature map records for that trait: on a positive
sign `m`'s feature; on a negative sign, if **`m`'s feature is the trait's
default** the first feature of the trait different from `m`'s (none if there
is no other), otherwise the trait's default. -/
theorem c2_editFeatures_amended (ph : Phoneme) (m : Modifier) (mods : List Modifier)
    (hf : mods.filter (fun x => x.trait.tid == m.trait.tid) = [m])
    (hp : (List.lookup m.trait.tid ph.features).isSome = true) :
    List.lookup m.trait.tid (editFeatures ph mods) = some (amendedNewFeatureFor m) := by
  rw [editFeatures_eq_foldl, ← newFeatureFor_eq_amended]
  exact editFeatures_fold_lookup ph m mods hf hp _

/-- C2 (witness): the amended statement evaluated at `exPh2`/`exMod2`. -/
theorem c2_editFeatures_amended_witness :
    List.lookup exMod2.trait.tid (editFeatures exPh2 [exMod2]) =
      some (amendedNewFeatureFor exMod2) :=
  c2_editFeatures_amended exPh2 exMod2 [exMod2] (by decide) (by decide)

theorem find?_eq_some_of_unique (p : α → Bool) (l : List α) (x : α)
    (hx : x ∈ l) (hpx : p x = true) (huniq : ∀ y ∈ l, p y = true → y = x) :
    l.find? p = some x := by
  induction l with
  | nil => cases hx
  | cons a as ih =>
    by_cases ha : p a = true
    · rw [List.find?_cons_of_pos _ ha]
      exact congrArg some (huniq a (List.mem_cons_self a as) ha)
    · rw [List.find?_cons_of_neg _ ha]
      apply ih
      · rcases List.mem_cons.mp hx with rfl | h
        · exact absurd hpx ha
        · exact h
      · intro y hy hpy
        exact huniq y (List.mem_cons_of_mem a hy) hpy

theorem prefixFree_unique_match (inv : List Phoneme) (hpf : prefixFree inv)
    (p : Phoneme) (hp : p ∈ inv) (rest : List Char) (hpref : p.glyph <+: rest) :
    ∀ q ∈ inv, q.glyph.isPrefixOf rest = true → q = p := by
  intro q hq hqp
  by_contra hne
  have hsymm : Symmetric fun p q : Phoneme => ¬ p.glyph <+: q.glyph ∧ ¬ q.glyph <+: p.glyph :=
    fun a b h => ⟨h.2, h.1⟩
  have hpair := List.Pairwise.forall hsymm hpf hq hp hne
  have hqpre : q.glyph <+: rest := List.isPrefixOf_iff_prefix.mp hqp
  rcases List.prefix_or_prefix_of_prefix hqpre hpref with h | h
  · exact hpair.1 h
  · exact hpair.2 h

theorem mkMatches_map_phoneme (ps : List Phoneme) (o : Nat) :
    (mkMatches ps o).map PhonemeMatch.phoneme = ps := by
  induction ps generalizing o with
  | nil => rfl
  | cons p ps ih => simp [mkMatches, PhonemeMatch.phoneme, ih]

theorem matchPhonemesGo_step (inv : List Phoneme) (f : Nat) (rest : List Char)
    (hrest : rest ≠ []) (offset : Nat) (acc : List PhonemeMatch) (p : Phoneme)
    (hfind : inv.find? (fun ph => ph.glyph.isPrefixOf rest) = some p) :
    matchPhonemesGo inv (f + 1) rest offset acc =
      matchPhonemesGo inv f (rest.drop p.glyph.length) (offset + p.glyph.length)
        (acc ++ [⟨offset, p.glyph.length, p⟩]) := by
  cases rest with
  | nil => exact absurd rfl hrest
  | cons c cs =>
    rw [matchPhonemesGo, hfind]
    exact fun h => List.noConfusion h

theorem matchPhonemesGo_render (inv : List Phoneme) (hpf : prefixFree inv)
    (hne : ∀ p ∈ inv, p.glyph ≠ []) :
    ∀ (ps : List Phoneme) (fuel offset : Nat) (acc : List PhonemeMatch),
      (∀ p ∈ ps, p ∈ inv) → (renderPhonemes ps).length < fuel →
      matchPhonemesGo inv fuel (renderPhonemes ps) offset acc =
        .ok (acc ++ mkMatches ps offset) := by
  intro ps
  induction ps with
  | nil =>
    intro fuel offset acc _ _
    simp [renderPhonemes, mkMatches, matchPhonemesGo]
  | cons p ps ih =>
    intro fuel offset acc hmem hfuel
    have hpinv : p ∈ inv := hmem p (List.mem_cons_self p ps)
    have hgl : p.glyph ≠ [] := hne p hpinv
    have hrend : renderPhonemes (p :: ps) = p.glyph ++ renderPhonemes ps := by
      simp [renderPhonemes]
    rw [hrend] at hfuel ⊢
    cases fuel with
    | zero => omega
    | succ f =>
      have hfind : inv.find? (fun ph => ph.glyph.isPrefixOf (p.glyph ++ renderPhonemes ps)) =
          some p := by
        apply find?_eq_some_of_unique _ _ p hpinv
        · exact List.isPrefixOf_iff_prefix.mpr (List.prefix_append _ _)
        · exact prefixFree_unique_match inv hpf p hpinv _ (List.prefix_append _ _)
      have hrne : p.glyph ++ renderPhonemes ps ≠ [] := by
        intro h
        exact hgl (List.append_eq_nil.mp h).1
      rw [matchPhonemesGo_step inv f (p.glyph ++ renderPhonemes ps) hrne offset acc p hfind]
      rw [List.drop_left]
      have hglen : 0 < p.glyph.length := List.length_pos.mpr hgl
      have hlen : (renderPhonemes ps).length < f := by
        simp only [List.length_append] at hfuel
        omega
      refine (ih f (offset + p.glyph.length) (acc ++ [PhonemeMatch.mk offset p.glyph.length p])
        (fun q hq => hmem q (List.mem_cons_of_mem p hq)) hlen).trans ?_
      simp [mkMatches, List.append_assoc]

/-- C7 (counterexample): the inventory `[ab, a, b]` — sorted by glyph length
descending, index ascending, and a fixed point of the module's
`listPhonemes` comparator sort — and the word whose phonemes are `[a, b]`.
Its rendering is the string `ab`, which greedy longest-match segments as the
single phoneme `ab`, not as `[a, b]`: the round-trip fails. -/
theorem c7_counterexample :
    exInv7 = jsToSorted phonemeCmp exInv7 ∧
    (∀ p ∈ exWord7.phonemes, p ∈ exInv7) ∧
    (matchPhonemes exWord7.render exInv7).phonemesOf ≠ some exWord7.phonemes := by
  refine ⟨by decide, by decide, by decide⟩

/-- C7 (amended): for a prefix-free inventory (no glyph is a prefix of
another's, all glyphs non-empty) and any word whose phonemes are drawn from
it, `matchPhonemes` on the word's rendering succeeds and returns exactly the
word's phoneme sequence. -/
theorem c7_roundtrip_amended (inv : List Phoneme) (w : Word)
    (hpf : prefixFree inv) (hne : ∀ p ∈ inv, p.glyph ≠ [])
    (hmem : ∀ p ∈ w.phonemes, p ∈ inv) :
    (matchPhonemes w.render inv).phonemesOf = some w.phonemes := by
  have hrw : w.render = renderPhonemes w.phonemes := rfl
  unfold matchPhonemes
  rw [hrw, matchPhonemesGo_render inv hpf hne w.phonemes _ 0 [] hmem (by omega)]
  simp [MatchResult.phonemesOf, mkMatches_map_phoneme]

/-- C7 (witness): the amended statement at the prefix-free inventory
`[a, b]` and the word /aba/. -/
theorem c7_roundtrip_amended_witness :
    (matchPhonemes exWord7b.render [exPhA, exPhB]).phonemesOf = some exWord7b.phonemes :=
  c7_roundtrip_amended [exPhA, exPhB] exWord7b (by decide) (by decide) (by decide)

/-- C8: whenever a modification-target sound change is resolved against a
source phoneme whose edited feature map matches no phoneme of its class
(`candidates` empty), `resolveTarget` keeps the original phoneme, pushes
exactly one warning carrying the change's `definitionSite` into the snapshot
context, and leaves the error list untouched (and, being total, raises
nothing). -/
theorem c8_unresolvable_warns_and_keeps (sc : SoundChange) (ct : ClassTable) (ph : Phoneme)
    (ctx : SnapshotContext) (mods : List Modifier)
    (ht : sc.target = Target.modification mods)
    (hc : candidatesFor ct ph mods = []) :
    (resolveTarget sc ct [ph] ctx).1 = [ph] ∧
    (resolveTarget sc ct [ph] ctx).2.warnings =
      ctx.warnings ++ [⟨unresolvableMsg, sc.definitionSite⟩] ∧
    (resolveTarget sc ct [ph] ctx).2.errors = ctx.errors := by
  simp [resolveTarget, ht, rtStep, hc]

/-- C8 (witness): `exSc8` against `exPh8` with an empty class table. -/
theorem c8_unresolvable_witness :
    (resolveTarget exSc8 ([] : ClassTable) [exPh8] ctx0).1 = [exPh8] ∧
    (resolveTarget exSc8 ([] : ClassTable) [exPh8] ctx0).2.warnings =
      ctx0.warnings ++ [⟨unresolvableMsg, exSc8.definitionSite⟩] ∧
    (resolveTarget exSc8 ([] : ClassTable) [exPh8] ctx0).2.errors = ctx0.errors :=
  c8_unresolvable_warns_and_keeps exSc8 ([] : ClassTable) exPh8 ctx0 [exMod8] rfl (by decide)

/-! ## Purity of the snapshot fold -/

theorem rtFold_fst (sc : SoundChange) (ct : ClassTable) (mods : List Modifier) :
    ∀ (source : List Phoneme) (acc : List Phoneme) (ctx : SnapshotContext),
      (source.foldl (rtStep sc ct mods) (acc, ctx)).1 =
        acc ++ source.map (applyModPhoneme ct mods) := by
  intro source
  induction source with
  | nil => intro acc ctx; simp
  | cons ph rest ih =>
    intro acc ctx
    cases hc : candidatesFor ct ph mods with
    | nil => simp [rtStep, hc, applyModPhoneme, ih]
    | cons c cs => simp [rtStep, hc, applyModPhoneme, ih]

theorem rtFold_errors (sc : SoundChange) (ct : ClassTable) (mods : List Modifier) :
    ∀ (source : List Phoneme) (acc : List Phoneme) (ctx : SnapshotContext),
      (source.foldl (rtStep sc ct mods) (acc, ctx)).2.errors = ctx.errors := by
  intro source
  induction source with
  | nil => intro acc ctx; rfl
  | cons ph rest ih =>
    intro acc ctx
    cases hc : candidatesFor ct ph mods with
    | nil => simp [rtStep, hc, ih]
    | cons c cs => simp [rtStep, hc, ih]

theorem resolveTarget_fst (sc : SoundChange) (ct : ClassTable) (source : List Phoneme)
    (ctx : SnapshotContext) : (resolveTarget sc ct source ctx).1 = rtPhonemes sc ct source := by
  cases ht : sc.target <;> simp [resolveTarget, rtPhonemes, ht, rtFold_fst]

theorem resolveTarget_errors (sc : SoundChange) (ct : ClassTable) (source : List Phoneme)
    (ctx : SnapshotContext) : (resolveTarget sc ct source ctx).2.errors = ctx.errors := by
  cases ht : sc.target <;> simp [resolveTarget, ht, rtFold_errors]

theorem applyRanges_pure (sc : SoundChange) (ct : ClassTable) :
    ∀ (ranges : List Range) (st : List Phoneme × Int × SnapshotContext),
      (ranges.foldl (applyStep sc ct) st).1 =
          (ranges.foldl (applyStepPure sc ct) (st.1, st.2.1)).1 ∧
        (ranges.foldl (applyStep sc ct) st).2.1 =
          (ranges.foldl (applyStepPure sc ct) (st.1, st.2.1)).2 ∧
        (ranges.foldl (applyStep sc ct) st).2.2.errors = st.2.2.errors := by
  intro ranges
  induction ranges with
  | nil => intro st; exact ⟨rfl, rfl, rfl⟩
  | cons r rest ih =>
    intro st
    have hstep : applyStep sc ct st r =
        ((applyStepPure sc ct (st.1, st.2.1) r).1, (applyStepPure sc ct (st.1, st.2.1) r).2,
         (resolveTarget sc ct (jsSlice st.1 r.start r.stop) st.2.2).2) := by
      simp [applyStep, applyStepPure, resolveTarget_fst]
    rcases ih (applyStep sc ct st r) with ⟨h1, h2, h3⟩
    refine ⟨?_, ?_, ?_⟩
    · rw [List.foldl_cons, h1, hstep]
      rfl
    · rw [List.foldl_cons, h2, hstep]
      rfl
    · rw [List.foldl_cons, h3, hstep]
      exact resolveTarget_errors sc ct _ st.2.2

theorem applyTo_fst (sc : SoundChange) (ct : ClassTable) (w : Word) (ctx : SnapshotContext) :
    (applyTo sc ct w ctx).1 = applyPhonemes sc ct w := by
  unfold applyTo applyPhonemes
  exact (applyRanges_pure sc ct (findMatchesIn sc w.phonemes) (w.phonemes, 0, ctx)).1

theorem applyTo_errors (sc : SoundChange) (ct : ClassTable) (w : Word) (ctx : SnapshotContext) :
    (applyTo sc ct w ctx).2.errors = ctx.errors := by
  unfold applyTo
  exact (applyRanges_pure sc ct (findMatchesIn sc w.phonemes) (w.phonemes, 0, ctx)).2.2

theorem apply_fst (w : Word) (ct : ClassTable) (sc : SoundChange) (ctx : SnapshotContext) :
    (w.apply ct sc ctx).1 = applyPure w ct sc := by
  cases h : appliesTo sc w <;> simp [Word.apply, applyPure, h, applyTo_fst]

theorem apply_errors (w : Word) (ct : ClassTable) (sc : SoundChange) (ctx : SnapshotContext) :
    (w.apply ct sc ctx).2.errors = ctx.errors := by
  cases h : appliesTo sc w <;> simp [Word.apply, h, applyTo_errors]

theorem applyFold_fst (ct : ClassTable) (scs : List SoundChange) :
    ∀ (w : Word) (ctx : SnapshotContext), (applyFold ct scs w ctx).1 = evolve ct scs w := by
  induction scs with
  | nil => intro w ctx; rfl
  | cons sc rest ih =>
    intro w ctx
    unfold applyFold evolve
    simp only [List.foldl_cons]
    have h1 : (w.apply ct sc ctx).1 = applyPure w ct sc := apply_fst w ct sc ctx
    rw [show rest.foldl (fun (p : Word × SnapshotContext) sc => p.1.apply ct sc p.2)
        (w.apply ct sc ctx) =
      applyFold ct rest (w.apply ct sc ctx).1 (w.apply ct sc ctx).2 from rfl]
    rw [ih (w.apply ct sc ctx).1 (w.apply ct sc ctx).2, h1]
    rfl

theorem applyFold_errors (ct : ClassTable) (scs : List SoundChange) :
    ∀ (w : Word) (ctx : SnapshotContext),
      (applyFold ct scs w ctx).2.errors = ctx.errors := by
  induction scs with
  | nil => intro w ctx; rfl
  | cons sc rest ih =>
    intro w ctx
    unfold applyFold
    simp only [List.foldl_cons]
    rw [show rest.foldl (fun (p : Word × SnapshotContext) sc => p.1.apply ct sc p.2)
        (w.apply ct sc ctx) =
      applyFold ct rest (w.apply ct sc ctx).1 (w.apply ct sc ctx).2 from rfl]
    rw [ih (w.apply ct sc ctx).1 (w.apply ct sc ctx).2]
    exact apply_errors w ct sc ctx

theorem snapFold_pure (ct : ClassTable) (scs : List SoundChange) :
    ∀ (ws : List Word) (acc : List Word) (ctx : SnapshotContext),
      (ws.foldl (snapStep ct scs) (acc, ctx)).1 = acc ++ ws.map (evolve ct scs) ∧
        (ws.foldl (snapStep ct scs) (acc, ctx)).2.errors = ctx.errors := by
  intro ws
  induction ws with
  | nil => intro acc ctx; simp
  | cons w rest ih =>
    intro acc ctx
    simp only [List.foldl_cons, List.map_cons]
    have hstep : snapStep ct scs (acc, ctx) w =
        (acc ++ [evolve ct scs w], (applyFold ct scs w ctx).2) := by
      simp [snapStep, applyFold_fst]
    rw [hstep]
    rcases ih (acc ++ [evolve ct scs w]) (applyFold ct scs w ctx).2 with ⟨h1, h2⟩
    refine ⟨?_, ?_⟩
    · rw [h1]
      simp
    · rw [h2]
      exact applyFold_errors ct scs w ctx

theorem snapshot_words_eq (m : Module) (language : Language) (time : Int) :
    (m.snapshot language time).words =
      (filterByTag Word.tag m.words language time).map
        (evolve m.classes
          (jsToSorted (sortByTag SoundChange.tag)
            (m.soundChanges.filter fun sc => decide (sc.tag.start ≤ time)))) := by
  unfold Module.snapshot
  exact (snapFold_pure _ _ _ [] _).1

theorem snapshot_errors_nil (m : Module) (language : Language) (time : Int) :
    (m.snapshot language time).errors = [] := by
  unfold Module.snapshot
  exact (snapFold_pure _ _ _ [] _).2

/-- C10: every snapshot has an empty error list and `ok = true`: the snapshot
fold (`Word.apply` → `applyTo` → `resolveTarget`) only ever appends warnings
to the shared context, never errors, and `ok` is computed as
`errors.length === 0`. -/
theorem c10_snapshot_ok (m : Module) (language : Language) (time : Int) :
    (m.snapshot language time).errors = [] ∧ (m.snapshot language time).ok = true := by
  refine ⟨snapshot_errors_nil m language time, ?_⟩
  have h : (m.snapshot language time).ok =
      ((m.snapshot language time).errors.length == 0) := by
    unfold Module.snapshot
    rfl
  rw [h, snapshot_errors_nil m language time]
  rfl

/-- C9: `Word.apply` never touches the input word (the embedding is a pure
function of it — the source copies the phoneme array before splicing): when
the change does not apply it returns the word itself unchanged, and when it
applies it returns a freshly built `Word` that keeps the gloss, definitions,
tag and definition site, carries the rewritten phonemes, extends the
etymology by `[w, sc]` — and is therefore distinct from `w`. -/
theorem c9_apply_immutable (w : Word) (ct : ClassTable) (sc : SoundChange)
    (ctx : SnapshotContext) :
    (appliesTo sc w = false → w.apply ct sc ctx = (w, ctx)) ∧
    (appliesTo sc w = true →
      (w.apply ct sc ctx).1.gloss = w.gloss ∧
      (w.apply ct sc ctx).1.phonemes = (applyTo sc ct w ctx).1 ∧
      (w.apply ct sc ctx).1.definitions = w.definitions ∧
      (w.apply ct sc ctx).1.tag = w.tag ∧
      (w.apply ct sc ctx).1.definitionSite = w.definitionSite ∧
      (w.apply ct sc ctx).1.etymology = w.etymology ++ [(w, sc)] ∧
      (w.apply ct sc ctx).1 ≠ w) := by
  constructor
  · intro h
    simp [Word.apply, h]
  · intro h
    simp only [Word.apply, if_pos h]
    refine ⟨rfl, rfl, rfl, rfl, rfl, rfl, ?_⟩
    intro he
    have hlen := congrArg (fun v : Word => v.etymology.length) he
    simp only [Word.etymology, List.length_append, List.length_cons, List.length_nil] at hlen
    omega

/-- C9 (witness): `exSc9` applies to `exWord9`, and the returned word is
distinct from the input. -/
theorem c9_apply_immutable_witness :
    appliesTo exSc9 exWord9 = true ∧
    (exWord9.apply ([] : ClassTable) exSc9 ctx0).1 ≠ exWord9 :=
  ⟨by decide,
   ((c9_apply_immutable exWord9 ([] : ClassTable) exSc9 ctx0).2 (by decide)).2.2.2.2.2.2⟩

theorem applyPure_gloss (w : Word) (ct : ClassTable) (sc : SoundChange) :
    (applyPure w ct sc).gloss = w.gloss := by
  cases h : appliesTo sc w <;> simp [applyPure, h, Word.gloss]

theorem evolve_gloss (ct : ClassTable) (scs : List SoundChange) :
    ∀ w : Word, (evolve ct scs w).gloss = w.gloss := by
  induction scs with
  | nil => intro w; rfl
  | cons sc rest ih =>
    intro w
    unfold evolve
    simp only [List.foldl_cons]
    rw [show rest.foldl (fun v sc => applyPure v ct sc) (applyPure w ct sc) =
      evolve ct rest (applyPure w ct sc) from rfl]
    rw [ih (applyPure w ct sc), applyPure_gloss]

theorem isChildLanguage_iff (a b : Language) :
    isChildLanguage a b = true ↔ IsDescendantOf a b := by
  induction a with
  | root i =>
    constructor
    · intro h
      by_cases hb : Language.root i = b
      · exact hb ▸ IsDescendantOf.refl _
      · unfold isChildLanguage at h
        rw [if_neg hb] at h
        exact absurd h (by simp)
    · intro h
      cases h with
      | refl => simp [isChildLanguage]
  | child i p ih =>
    constructor
    · intro h
      by_cases hb : Language.child i p = b
      · exact hb ▸ IsDescendantOf.refl _
      · unfold isChildLanguage at h
        rw [if_neg hb] at h
        by_cases hp : p = b
        · exact hp ▸ IsDescendantOf.step i p b (hp ▸ IsDescendantOf.refl p)
        · replace h : isChildLanguage p b = true := by
            rw [show (match Language.child i p with
              | Language.root _ => false
              | Language.child _ p => if p = b then true else isChildLanguage p b) =
              (if p = b then true else isChildLanguage p b) from rfl] at h
            rw [if_neg hp] at h
            exact h
          exact IsDescendantOf.step i p b (ih.mp h)
    · intro h
      cases h with
      | refl => simp [isChildLanguage]
      | step i' p' a' hd =>
        unfold isChildLanguage
        by_cases hb : Language.child i p = b
        · rw [if_pos hb]
        · rw [if_neg hb]
          show (if p = b then true else isChildLanguage p b) = true
          by_cases hp : p = b
          · rw [if_pos hp]
          · rw [if_neg hp]
            exact ih.mpr hd

theorem mem_filterByTag (tag : α → Tag) (items : List α) (L : Language) (t : Int) (u : α) :
    u ∈ filterByTag tag items L t ↔
      u ∈ items ∧ isChildLanguage L (tag u).language = true ∧
        (tag u).start ≤ t ∧ (tag u).stop.geI t = true := by
  unfold filterByTag
  simp only [List.mem_filter, Bool.and_eq_true, decide_eq_true_eq]
  tauto

/-- C3: for a word `w` of the module (glosses being unique, as the module
keys words by gloss), the snapshot for `(L, t)` contains a descendant of `w`
(identified by its gloss, which evolution preserves) iff `L` is `w`'s
language or a descendant of it, and `tag.start ≤ t ≤ tag.end` with both
endpoints included. -/
theorem c3_snapshot_membership (m : Module) (L : Language) (t : Int) (w : Word)
    (hw : w ∈ m.words) (hnd : (m.words.map Word.gloss).Nodup) :
    (∃ v ∈ (m.snapshot L t).words, v.gloss = w.gloss) ↔
      (IsDescendantOf L w.tag.language ∧ w.tag.start ≤ t ∧ leTime t w.tag.stop) := by
  rw [snapshot_words_eq]
  constructor
  · rintro ⟨v, hv, hg⟩
    rcases List.mem_map.mp hv with ⟨u, hu, rfl⟩
    have hug : u.gloss = w.gloss := by
      rw [← evolve_gloss m.classes _ u]
      exact hg
    rcases (mem_filterByTag Word.tag m.words L t u).mp hu with ⟨humem, hchild, hstart, hstop⟩
    have huw : u = w := List.inj_on_of_nodup_map hnd humem hw hug
    subst huw
    exact ⟨(isChildLanguage_iff L u.tag.language).mp hchild, hstart,
      (geI_iff_leTime u.tag.stop t).mp hstop⟩
  · rintro ⟨hdesc, hstart, hstop⟩
    refine ⟨evolve m.classes _ w, List.mem_map_of_mem _ ?_, evolve_gloss m.classes _ w⟩
    exact (mem_filterByTag Word.tag m.words L t w).mpr
      ⟨hw, (isChildLanguage_iff L w.tag.language).mpr hdesc, hstart,
        (geI_iff_leTime w.tag.stop t).mpr hstop⟩

/-- C3 (witness): the snapshot of `exMod3` at `(exLang3, 5)` contains the
word `g3` declared on `[0, 10]` under `exLang3`. -/
theorem c3_snapshot_membership_witness :
    ∃ v ∈ (exMod3.snapshot exLang3 5).words, v.gloss = exWord3.gloss :=
  (c3_snapshot_membership exMod3 exLang3 5 exWord3 (by simp [exMod3])
      (by simp [exMod3])).mpr
    ⟨IsDescendantOf.refl exLang3, by decide, by decide⟩

/-- C1 (code bug exhibit): compiling a word statement before any milestone
records the "cannot be defined before a milestone" error in the module — but
then the handler falls through to `ctx.getTag()`, whose first assertion
fails, so an exception escapes `compileWord` (and hence `compileModule`)
instead of compilation continuing. -/
theorem c1_word_before_milestone_throws :
    compileWord exModEmpty Context.init exStmt1 =
      ({ exModEmpty with errors := [⟨wordBeforeMilestoneMsg, span0⟩] },
       Context.init, Except.error getTagAssertStartMsg) := rfl

theorem hasMilestone_iff (l : List Milestone) (x : Milestone) :
    hasMilestone l x = true ↔ x ∈ l := by
  unfold hasMilestone
  rw [List.find?_isSome]
  constructor
  · rintro ⟨y, hy, hpy⟩
    rcases y with ⟨ys, ye, yl⟩
    rcases x with ⟨xs, xe, xl⟩
    simp only [Bool.and_eq_true, beq_iff_eq] at hpy
    rcases hpy with ⟨⟨h1, h2⟩, h3⟩
    subst h1; subst h2; subst h3
    exact hy
  · intro hx
    exact ⟨x, hx, by simp⟩

/-- C5: the modelled milestone recording of the current compiler appends the
milestone to the module's milestone list and to the language's own list, with
duplicates by `(starts, ends, language)` suppressed: the milestone is a
member of both lists afterwards, and recording it again changes neither
list. -/
theorem c5_milestone_recorded (mm lm : List Milestone) (x : Milestone) :
    x ∈ (compileMilestoneModelled mm lm x).1 ∧
    x ∈ (compileMilestoneModelled mm lm x).2 ∧
    compileMilestoneModelled (compileMilestoneModelled mm lm x).1
        (compileMilestoneModelled mm lm x).2 x =
      ((compileMilestoneModelled mm lm x).1, (compileMilestoneModelled mm lm x).2) := by
  have hmem : ∀ l : List Milestone, x ∈ (if hasMilestone l x then l else l ++ [x]) := by
    intro l
    by_cases h : hasMilestone l x = true
    · rw [if_pos h]
      exact (hasMilestone_iff l x).mp h
    · rw [if_neg h]
      simp
  have hmem1 := hmem mm
  have hmem2 := hmem lm
  refine ⟨hmem1, hmem2, ?_⟩
  have h1 : hasMilestone (compileMilestoneModelled mm lm x).1 x = true :=
    (hasMilestone_iff _ x).mpr hmem1
  have h2 : hasMilestone (compileMilestoneModelled mm lm x).2 x = true :=
    (hasMilestone_iff _ x).mpr hmem2
  have hid : ∀ a b : List Milestone, hasMilestone a x = true → hasMilestone b x = true →
      compileMilestoneModelled a b x = (a, b) := by
    intro a b ha hb
    unfold compileMilestoneModelled
    rw [if_pos ha, if_pos hb]
  exact hid _ _ h1 h2

end Chronlang
